import Mathlib

/-!
# Verification of the `@lumjs/events` dispatch core

A shallow embedding of the event dispatch engine of the `lum.events.js`
repository: the `LumEventRegistry` class (emit / listen / add / remove /
removeAll / removeEvents / removeListeners / set / getEventTypes /
splitNames), the `LumEventListener` class (`emitEvent`), and the
`LumEvent` constructor taking `(listener, target, type, args, status)`.

Modelling conventions:

* JS `Set` objects are modelled as duplicate-free lists in insertion
  order (`setInsert` is `Set.prototype.add`, `jsSetOf` is `new Set(it)`,
  `jsUnion` is `Set.prototype.union`); JS `Map` objects are association
  lists in insertion order (`mapGet` / `mapSet`).
* Listener objects live in a heap `store : Nat → LumEventListener`
  addressed by identity; registry tables hold identities.
* A handler is opaque: it is identified by a number and modelled by its
  observable effects on the dispatch pass — whether calling it sets the
  status' cooperative `stopEmitting` flag (`stops`).  Handlers that
  mutate the registry mid-pass are outside the model.
* The composed `event.options.once` flag reduces to the listener's own
  `once` option, because in the modelled code neither the registry
  default options, nor the per-type `LumEventData` (which has no
  `options` field), nor the status object contribute a `once` key.
* Event `data` payloads and targets are identified by numbers; the
  first positional argument of `emit()` is classified exactly as the
  `Event` constructor does: a non-object, a plain object, or a previous
  `Event` instance.
* The registry's `delimiter` option is fixed to its default `/\s+/`.
* `getEventTypes` additionally records in `fresh` whether the source
  allocates a new `Set` for its result (`splitNames`, `new Set([sym])`,
  `new Set(iterable)`) or returns the argument object itself
  (the `types instanceof Set` branch).
-/

/-- An event type token: a JS string, or a symbol carrying an identity
and an optional description. -/
inductive Token where
  | str : String → Token
  | sym : Nat → Option String → Token
deriving DecidableEq

/-- `Set.prototype.add`: append unless already present. -/
def setInsert {α : Type} [DecidableEq α] (l : List α) (a : α) : List α :=
  if a ∈ l then l else l ++ [a]

/-- `new Set(iterable)`: first-occurrence deduplication in order. -/
def jsSetOf {α : Type} [DecidableEq α] (l : List α) : List α :=
  l.foldl setInsert []

/-- `Set.prototype.union`: the elements of the first set, then the
elements of the second not already present. -/
def jsUnion {α : Type} [DecidableEq α] (a b : List α) : List α :=
  a ++ b.filter (fun x => decide (x ∉ a))

/-- `Map.prototype.get` on an association list. -/
def mapGet {α : Type} [DecidableEq α] {β : Type} :
    List (α × β) → α → Option β
  | [], _ => none
  | p :: rest, k => if p.1 = k then some p.2 else mapGet rest k

/-- `Map.prototype.set`: overwrite the entry with the key, else append. -/
def mapSet {α : Type} [DecidableEq α] {β : Type}
    (m : List (α × β)) (k : α) (v : β) : List (α × β) :=
  if m.any (fun p => decide (p.1 = k)) then
    m.map (fun p => if p.1 = k then (k, v) else p)
  else m ++ [(k, v)]

/-- The whitespace characters recognised for the default `/\s+/`
delimiter. -/
def isJsSpace (c : Char) : Bool :=
  c = ' ' || c = '\t' || c = '\n' || c = '\r'

/-- Trim leading and trailing whitespace from a character list
(`String.prototype.trim`). -/
def trimChars (cs : List Char) : List Char :=
  ((cs.dropWhile isJsSpace).reverse.dropWhile isJsSpace).reverse

/-- Split a character list on maximal whitespace runs, accumulating the
current token in reverse.  Models `String.prototype.split(/\s+/)` on a
trimmed string. -/
def wsTokens : List Char → List Char → List String
  | [], acc => if acc = [] then [] else [String.mk acc.reverse]
  | c :: rest, acc =>
    if isJsSpace c then
      if acc = [] then wsTokens rest []
      else String.mk acc.reverse :: wsTokens rest []
    else wsTokens rest (c :: acc)

/-- `s.trim().split(/\s+/)` (the empty string splits to `[""]`, as in
JS). -/
def splitWs (s : String) : List String :=
  let t := trimChars s.data
  if t = [] then [""] else wsTokens t []

/-- A previously constructed `Event` instance appearing as an `emit()`
argument: the fields of it that the `Event` constructor reads on the
event-forwarding path. -/
structure PrevEvent where
  id : Nat
  data : Option Nat
  origEventId : Nat
deriving DecidableEq

/-- One positional `emit()` argument, classified as the `Event`
constructor classifies it: not an object, a plain data object, or a
previous `Event` instance. -/
inductive Arg where
  | nonObj : Nat → Arg
  | dataObj : Nat → Arg
  | evArg : PrevEvent → Arg
deriving DecidableEq

/-- The observable fields of a constructed `LumEvent`.  `id` is the
identity of the event object (fresh per construction); `args` is the
argument array the event holds after construction (the constructor
aliases, and possibly shifts, the shared array — it takes no copy). -/
structure LumEvent where
  id : Nat
  listenerId : Nat
  targetId : Nat
  type : Token
  name : String
  args : List Arg
  data : Option Nat
  prevEventId : Option Nat
  origEventId : Nat
deriving DecidableEq

/-- Per-type metadata: the internal `LumEventData` class of the
registry module, together with the `stateData` history buffer that
`set()` manages (`stateful` is the derived `keepState > 0`). -/
structure LumEventData where
  type : Token
  oneTime : Bool
  keepState : Int
  stateData : Option (List LumEvent)
deriving DecidableEq

/-- A registered `LumEventListener`: its handler (identified by a
number and by the `stops` effect of calling it), its event-type set and
its composed `once` option. -/
structure LumEventListener where
  handler : Nat
  eventTypes : List Token
  once : Bool
  stops : Bool

/-- The `LumEventRegistry` state: the two listener tables, the
per-type `eventData` map, the listener heap, the fixed target set and
the compiled options used by dispatch. -/
structure LumEventRegistry where
  allListeners : List Nat
  listenersFor : List (Token × List Nat)
  eventData : List (Token × LumEventData)
  store : Nat → LumEventListener
  targets : List Nat
  wildcard : Token := Token.str "*"
  multiMatch : Bool := false

/-- The argument of `getEventTypes` / `emit` step 1: a string, a
symbol, a `Set`, or another iterable of tokens. -/
inductive TypesArg where
  | str : String → TypesArg
  | sym : Nat → Option String → TypesArg
  | set : List Token → TypesArg
  | iter : List Token → TypesArg

/-- The result of `getEventTypes`: the token set, plus whether the
source allocated a new `Set` for it (`fresh = false` exactly on the
branch that returns the caller's `Set` object itself). -/
structure EventTypesResult where
  tokens : List Token
  fresh : Bool

/-- `splitNames`: `new Set(names.trim().split(this.options.delimiter))`
with the default delimiter. -/
def LumEventRegistry.splitNames (_r : LumEventRegistry) (s : String) :
    List Token :=
  jsSetOf ((splitWs s).map Token.str)

/-- `getEventTypes`: a string is split with `splitNames`, a symbol is
wrapped in a fresh singleton `Set`, a `Set` is returned as-is, any
other iterable is copied into a fresh `Set`. -/
def LumEventRegistry.getEventTypes (r : LumEventRegistry) :
    TypesArg → EventTypesResult
  | TypesArg.str s => { tokens := r.splitNames s, fresh := true }
  | TypesArg.sym i d => { tokens := [Token.sym i d], fresh := true }
  | TypesArg.set ts => { tokens := ts, fresh := false }
  | TypesArg.iter ts => { tokens := jsSetOf ts, fresh := true }

/-- The `LumEvent` constructor `(listener, target, type, args, status)`.
Returns the constructed event and the argument array as it stands after
construction: the constructor stores the array itself (`this.args =
args`), and on the event-forwarding path (`args[0] instanceof LumEvent`)
it adopts the previous event's `data` and `origEvent`, records it as
`prevEvent`, and `args.shift()`s it out of the shared array.  A leading
plain object becomes `data` with the array untouched; otherwise `data`
is null and `origEvent` is the event itself. -/
def LumEvent.create (lid tg : Nat) (t : Token) (args : List Arg)
    (eid : Nat) : LumEvent × List Arg :=
  let nm := match t with
    | Token.str s => s
    | Token.sym _ d => d.getD "‽"
  match args with
  | Arg.evArg p :: rest =>
    ({ id := eid, listenerId := lid, targetId := tg, type := t, name := nm,
       args := rest, data := p.data, prevEventId := some p.id,
       origEventId := p.origEventId }, rest)
  | Arg.dataObj d :: _ =>
    ({ id := eid, listenerId := lid, targetId := tg, type := t, name := nm,
       args := args, data := some d, prevEventId := none,
       origEventId := eid }, args)
  | _ =>
    ({ id := eid, listenerId := lid, targetId := tg, type := t, name := nm,
       args := args, data := none, prevEventId := none,
       origEventId := eid }, args)

/-- The mutable bookkeeping of one `emit()` pass (the parts of the
status object the loops thread): accumulated events, pending `once`
removals, the shared argument array, the next fresh event identity, and
the cooperative stop flag. -/
structure EmitSt where
  emitted : List LumEvent
  onceRemoved : List Nat
  args : List Arg
  nextId : Nat
  stop : Bool
deriving DecidableEq

/-- `Listener.emitEvent(type, target, args, status)`: construct the
event, invoke the handler (modelled by its `stops` effect on the
status), then register the listener for deferred removal when the
composed `once` option is set.  Returns the event; the caller pushes it
onto `status.emitted`. -/
def LumEventListener.emitEvent (ld : LumEventListener) (lid : Nat)
    (t : Token) (tg : Nat) (st : EmitSt) : LumEvent × EmitSt :=
  let c := LumEvent.create lid tg t st.args st.nextId
  let stop2 := st.stop || ld.stops
  let onceR := if ld.once then setInsert st.onceRemoved lid
    else st.onceRemoved
  (c.1, { st with args := c.2, nextId := st.nextId + 1,
                  stop := stop2, onceRemoved := onceR })

/-- The body of emit's innermost loop for one candidate listener: skip
when `multiMatch` is off and the listener is already in the per-target
dedupe set, otherwise mark it, dispatch through `emitEvent` and push
the event. -/
def emitStep (r : LumEventRegistry) (tg : Nat) (t : Token) (lid : Nat)
    (called : List Nat) (st : EmitSt) : List Nat × EmitSt :=
  if r.multiMatch = true ∨ lid ∉ called then
    let called2 := setInsert called lid
    let q := (r.store lid).emitEvent lid t tg st
    (called2, { q.2 with emitted := q.2.emitted ++ [q.1] })
  else (called, st)

/-- Emit's loop over the candidate listeners of one (target, type)
pair; `break emitting` when the stop flag was set by the handler. -/
def runListeners (r : LumEventRegistry) (tg : Nat) (t : Token) :
    List Nat → List Nat → EmitSt → List Nat × EmitSt
  | [], called, st => (called, st)
  | lid :: rest, called, st =>
    let p := emitStep r tg t lid called st
    if p.2.stop then p
    else runListeners r tg t rest p.1 p.2

/-- The candidate set for one (target, type) pair: the type's own
listener set, unioned with the wildcard set when one exists
(`if (wilds) listeners = listeners.union(wilds)`). -/
def candsOf (wilds : Option (List Nat)) (s : List Nat) : List Nat :=
  match wilds with
  | some w => jsUnion s w
  | none => s

/-- Emit's loop over the requested types for one target: a type with no
`listenersFor` entry is skipped entirely; otherwise the candidate set
is the type's listener set unioned with the wildcard set when one
exists. -/
def runTypes (r : LumEventRegistry) (tg : Nat)
    (wilds : Option (List Nat)) :
    List Token → List Nat → EmitSt → EmitSt
  | [], _, st => st
  | t :: rest, called, st =>
    match mapGet r.listenersFor t with
    | none => runTypes r tg wilds rest called st
    | some s =>
      let p := runListeners r tg t (candsOf wilds s) called st
      if p.2.stop then p.2
      else runTypes r tg wilds rest p.1 p.2

/-- Emit's outer loop over the resolved targets, resetting the
per-target dedupe set for each. -/
def runTargets (r : LumEventRegistry) (wilds : Option (List Nat))
    (ets : List Token) : List Nat → EmitSt → EmitSt
  | [], st => st
  | tg :: rest, st =>
    let st2 := runTypes r tg wilds ets [] st
    if st2.stop then st2
    else runTargets r wilds ets rest st2

/-- `removeListeners` for a single listener: when it is registered,
delete it from `allListeners` and from the `listenersFor` set of each
of its event types. -/
def LumEventRegistry.removeListener (r : LumEventRegistry) (lid : Nat) :
    LumEventRegistry :=
  if lid ∈ r.allListeners then
    { r with
      allListeners := r.allListeners.filter (fun x => decide (x ≠ lid)),
      listenersFor := (r.store lid).eventTypes.foldl
        (fun lf et => lf.map (fun p =>
          if p.1 = et then (p.1, p.2.filter (fun x => decide (x ≠ lid)))
          else p)) r.listenersFor }
  else r

/-- `removeListeners(...listeners)`. -/
def LumEventRegistry.removeListeners (r : LumEventRegistry)
    (lids : List Nat) : LumEventRegistry :=
  lids.foldl LumEventRegistry.removeListener r

/-- `removeAll()`: clear both listener tables and nothing else. -/
def LumEventRegistry.removeAll (r : LumEventRegistry) :
    LumEventRegistry :=
  { r with allListeners := [], listenersFor := [] }

/-- `removeEvents(...types)`: for each named type with a `listenersFor`
entry, delete the type from each member listener's own type set,
deregistering listeners whose type set becomes empty, then clear the
type's entry. -/
def LumEventRegistry.removeEvents (r : LumEventRegistry)
    (types : List Token) : LumEventRegistry :=
  types.foldl (fun acc et =>
    match mapGet acc.listenersFor et with
    | none => acc
    | some s =>
      let acc2 := s.foldl (fun a lid =>
        let ld := a.store lid
        let ld2 := { ld with
          eventTypes := ld.eventTypes.filter (fun x => decide (x ≠ et)) }
        let a2 := { a with
          store := fun i => if i = lid then ld2 else a.store i }
        if ld2.eventTypes = [] then a2.removeListener lid else a2) acc
      { acc2 with listenersFor := mapSet acc2.listenersFor et [] }) r

/-- The argument of `remove()`: an event-name token or a listener
instance. -/
inductive RemoveArg where
  | tok : Token → RemoveArg
  | lsnr : Nat → RemoveArg

/-- `remove(what)`: the wildcard token calls `removeAll()`; any other
string is split with `splitNames` and passed to `removeEvents`; a
symbol goes to `removeEvents` directly; a listener to
`removeListeners`. -/
def LumEventRegistry.remove (r : LumEventRegistry) :
    RemoveArg → LumEventRegistry
  | RemoveArg.tok t =>
    if t = r.wildcard then r.removeAll
    else match t with
      | Token.str s => r.removeEvents (r.splitNames s)
      | Token.sym i d => r.removeEvents [Token.sym i d]
  | RemoveArg.lsnr lid => r.removeListeners [lid]

/-- `emit(eventTypes, ...args)`: normalise the types, snapshot
`multiMatch`, look the wildcard set up once, resolve the targets, run
the dispatch loops, then apply the deferred `once` removals and return
the final registry together with the status (the per-target
`targetListeners` dedupe set is deleted from the returned status, so it
does not appear here). -/
def LumEventRegistry.emit (r : LumEventRegistry) (types : TypesArg)
    (args : List Arg) : LumEventRegistry × EmitSt :=
  let ets := (r.getEventTypes types).tokens
  let wilds := mapGet r.listenersFor r.wildcard
  let tgs := jsSetOf r.targets
  let st := runTargets r wilds ets tgs
    { emitted := [], onceRemoved := [], args := args, nextId := 0,
      stop := false }
  (r.removeListeners st.onceRemoved, st)

/-- `set(type, opts)`: fetch-or-create the `LumEventData` for the type,
apply `oneTime` when given, apply `keepState` when given (else the
`stateful` boolean shortcut: true selects the fixed default capacity
10, false selects 0), then reconcile the `stateData` buffer with the
derived stateful flag. -/
def LumEventRegistry.set (r : LumEventRegistry) (t : Token)
    (oneTime : Option Bool) (keepState : Option Int)
    (stateful : Option Bool) : LumEventRegistry :=
  let d0 : LumEventData := match mapGet r.eventData t with
    | some d => d
    | none =>
      { type := t, oneTime := false, keepState := 0, stateData := none }
  let d1 : LumEventData := match oneTime with
    | some b => { d0 with oneTime := b }
    | none => d0
  let d2 : LumEventData := match keepState with
    | some n => { d1 with keepState := n }
    | none => match stateful with
      | some true => { d1 with keepState := 10 }
      | some false => { d1 with keepState := 0 }
      | none => d1
  let d3 :=
    if 0 < d2.keepState ∧ d2.stateData = none then
      { d2 with stateData := some [] }
    else if d2.stateData ≠ none ∧ ¬ 0 < d2.keepState then
      { d2 with stateData := none }
    else d2
  { r with eventData := mapSet r.eventData t d3 }

/-- A `listen()` / `makeListener()` specification: the requested event
types, the handler, and the relevant composed listener options. -/
structure ListenerSpec where
  eventTypes : TypesArg
  handler : Nat
  once : Bool := false
  stops : Bool := false

/-- `makeListener`: construct the listener object (its type set comes
from `getEventTypes`) at a fresh heap identity; it is not yet
registered. -/
def LumEventRegistry.makeListener (r : LumEventRegistry) (lid : Nat)
    (sp : ListenerSpec) : LumEventRegistry :=
  let ld : LumEventListener :=
    { handler := sp.handler, once := sp.once, stops := sp.stops,
      eventTypes := (r.getEventTypes sp.eventTypes).tokens }
  { r with store := fun i => if i = lid then ld else r.store i }

/-- The loop of `add()` over the listener's event types: fetch or
create each type's `listenersFor` set and add the listener to it. -/
def addTypes (lid : Nat) :
    List Token → List (Token × List Nat) → List (Token × List Nat)
  | [], lf => lf
  | et :: rest, lf =>
    addTypes lid rest (match mapGet lf et with
      | some s => mapSet lf et (setInsert s lid)
      | none => lf ++ [(et, [lid])])

/-- `add(listener)`: insert into `allListeners` and into the set of
each of the listener's event types. -/
def LumEventRegistry.add (r : LumEventRegistry) (lid : Nat) :
    LumEventRegistry :=
  { r with allListeners := setInsert r.allListeners lid,
           listenersFor := addTypes lid (r.store lid).eventTypes
             r.listenersFor }

/-- `listen(...)`: `makeListener` followed by `add`.  The second
component is the list of events dispatched during the call: the source
`listen()`/`makeListener()`/`add()` construct no `Event` and call no
handler, so it is empty — there is no replay of stored state. -/
def LumEventRegistry.listen (r : LumEventRegistry) (lid : Nat)
    (sp : ListenerSpec) : LumEventRegistry × List LumEvent :=
  ((r.makeListener lid sp).add lid, [])

/-- Table well-formedness: every listener sitting in a `listenersFor`
set is registered in `allListeners` and has that type in its own type
set.  `listen()`-built registries satisfy this by construction. -/
def WFRegistry (r : LumEventRegistry) : Prop :=
  ∀ t s, (t, s) ∈ r.listenersFor → ∀ l, l ∈ s →
    l ∈ r.allListeners ∧ t ∈ (r.store l).eventTypes

/-- No handler of the registry sets the cooperative stop flag. -/
def NoStops (r : LumEventRegistry) : Prop :=
  ∀ i, (r.store i).stops = false

/-- The number of events of one `(listener, target)` pair in an emitted
list. -/
def countFor (evs : List LumEvent) (lid tg : Nat) : Nat :=
  (evs.filter (fun e => decide (e.listenerId = lid ∧ e.targetId = tg))).length

/-! ## Concrete registries used as test vectors -/

/-- A listener registered solely under the wildcard token. -/
def hWild : LumEventListener :=
  { handler := 1, eventTypes := [Token.str "*"], once := false,
    stops := false }

/-- A registry holding exactly one wildcard listener and one target. -/
def rC1 : LumEventRegistry :=
  { allListeners := [1], listenersFor := [(Token.str "*", [1])],
    eventData := [], store := fun _ => hWild, targets := [0] }

/-- A listener for the single type `"x"`. -/
def hX : LumEventListener :=
  { handler := 7, eventTypes := [Token.str "x"], once := false,
    stops := false }

/-- A registry with one `"x"` listener and no type metadata yet. -/
def rBase : LumEventRegistry :=
  { allListeners := [1], listenersFor := [(Token.str "x", [1])],
    eventData := [], store := fun _ => hX, targets := [0] }

/-- `rBase` after `set("x", {keepState: 2})`: the type is stateful with
an empty history buffer. -/
def r4 : LumEventRegistry :=
  rBase.set (Token.str "x") none (some 2) none

/-- A sample stored `Event` snapshot for a history buffer. -/
def dummyEvent : LumEvent :=
  { id := 0, listenerId := 1, targetId := 0, type := Token.str "x",
    name := "x", args := [], data := some 3, prevEventId := none,
    origEventId := 0 }

/-- A registry whose type `"x"` is stateful with one stored snapshot
and no listeners registered yet. -/
def r5 : LumEventRegistry :=
  { allListeners := [], listenersFor := [],
    eventData := [(Token.str "x",
      { type := Token.str "x", oneTime := false, keepState := 2,
        stateData := some [dummyEvent] })],
    store := fun _ => hX, targets := [0] }

/-- A plain `listen("x", handler)` specification. -/
def spec5 : ListenerSpec := { eventTypes := TypesArg.str "x", handler := 9 }

/-- A previously constructed event with a data payload, used as the
first `emit()` argument on the forwarding path. -/
def pe0 : PrevEvent := { id := 100, data := some 7, origEventId := 100 }

/-- A listener for the single type `"t"`. -/
def hT : LumEventListener :=
  { handler := 0, eventTypes := [Token.str "t"], once := false,
    stops := false }

/-- A registry with two listeners on type `"t"` and one target, so one
`emit("t", ...)` call constructs two events. -/
def rC6 : LumEventRegistry :=
  { allListeners := [1, 2], listenersFor := [(Token.str "t", [1, 2])],
    eventData := [], store := fun _ => hT, targets := [0] }

/-- A listener registered for the two types `"a"` and `"b"`. -/
def hA : LumEventListener :=
  { handler := 0, eventTypes := [Token.str "a", Token.str "b"],
    once := false, stops := false }

/-- A registry with one listener under both `"a"` and `"b"` and a
single target, with `multiMatch` left at its default `false`. -/
def rTwo : LumEventRegistry :=
  { allListeners := [1], listenersFor :=
      [(Token.str "a", [1]), (Token.str "b", [1])],
    eventData := [], store := fun _ => hA, targets := [10] }

/-- A `once` listener on type `"a"`. -/
def hOnce : LumEventListener :=
  { handler := 0, eventTypes := [Token.str "a"], once := true,
    stops := false }

/-- A registry with a single `once` listener and `multiMatch` on. -/
def rOnce : LumEventRegistry :=
  { allListeners := [1], listenersFor := [(Token.str "a", [1])],
    eventData := [], store := fun _ => hOnce, targets := [0],
    multiMatch := true }

/-! ## Collection lemmas -/

theorem mem_setInsert {α : Type} [DecidableEq α] (l : List α) (a b : α) :
    b ∈ setInsert l a ↔ b = a ∨ b ∈ l := by
  unfold setInsert
  split
  · rename_i h
    constructor
    · exact fun hb => Or.inr hb
    · rintro (rfl | hb) <;> [exact h; exact hb]
  · simp [List.mem_append, or_comm]

theorem self_mem_setInsert {α : Type} [DecidableEq α] (l : List α)
    (a : α) : a ∈ setInsert l a := by
  rw [mem_setInsert]; exact Or.inl rfl

theorem mem_of_mem_setInsert_ne {α : Type} [DecidableEq α]
    {l : List α} {a b : α} (h : b ∈ setInsert l a) (hne : b ≠ a) :
    b ∈ l := by
  rcases (mem_setInsert l a b).1 h with h1 | h1
  · exact absurd h1 hne
  · exact h1

theorem nodup_setInsert {α : Type} [DecidableEq α] {l : List α}
    (a : α) (h : l.Nodup) : (setInsert l a).Nodup := by
  unfold setInsert
  split
  · exact h
  · rename_i hna
    refine List.Nodup.append h (List.nodup_singleton a) ?_
    intro x hx hxa
    rw [List.mem_singleton] at hxa
    subst hxa
    exact hna hx

theorem jsSetFold_mem {α : Type} [DecidableEq α] (l : List α) :
    ∀ (acc : List α) (b : α),
      b ∈ l.foldl setInsert acc ↔ b ∈ acc ∨ b ∈ l := by
  induction l with
  | nil => intro acc b; simp
  | cons a rest ih =>
    intro acc b
    rw [List.foldl_cons, ih (setInsert acc a) b, mem_setInsert]
    constructor
    · rintro ((rfl | h) | h)
      · exact Or.inr (List.mem_cons_self _ _)
      · exact Or.inl h
      · exact Or.inr (List.mem_cons_of_mem _ h)
    · rintro (h | h)
      · exact Or.inl (Or.inr h)
      · rcases List.mem_cons.1 h with rfl | h2
        · exact Or.inl (Or.inl rfl)
        · exact Or.inr h2

theorem jsSetFold_nodup {α : Type} [DecidableEq α] (l : List α) :
    ∀ (acc : List α), acc.Nodup → (l.foldl setInsert acc).Nodup := by
  induction l with
  | nil => intro acc h; exact h
  | cons a rest ih =>
    intro acc h
    rw [List.foldl_cons]
    exact ih (setInsert acc a) (nodup_setInsert a h)

theorem mem_jsSetOf {α : Type} [DecidableEq α] (l : List α) (b : α) :
    b ∈ jsSetOf l ↔ b ∈ l := by
  unfold jsSetOf; rw [jsSetFold_mem]; simp

theorem nodup_jsSetOf {α : Type} [DecidableEq α] (l : List α) :
    (jsSetOf l).Nodup :=
  jsSetFold_nodup l [] List.nodup_nil

theorem mapGet_append_ne {α : Type} [DecidableEq α] {β : Type} :
    ∀ (m : List (α × β)) (k k' : α) (v : β), k' ≠ k →
      mapGet (m ++ [(k, v)]) k' = mapGet m k'
  | [], k, k', v, h => by
    simp only [List.nil_append, mapGet]
    rw [if_neg (fun hh => h hh.symm)]
  | p :: rest, k, k', v, h => by
    by_cases hp : p.1 = k'
    · simp [mapGet, hp]
    · simp only [List.cons_append, mapGet, hp, if_neg hp]
      exact mapGet_append_ne rest k k' v h

theorem mapGet_append_self {α : Type} [DecidableEq α] {β : Type}
    (m : List (α × β)) (k : α) (v : β) (h : ∀ p ∈ m, p.1 ≠ k) :
    mapGet (m ++ [(k, v)]) k = some v := by
  induction m with
  | nil => simp [mapGet]
  | cons p rest ih =>
    have hp := h p (List.mem_cons_self _ _)
    simp only [List.cons_append, mapGet, if_neg hp]
    exact ih (fun q hq => h q (List.mem_cons_of_mem _ hq))

theorem mapGet_map_overwrite {α : Type} [DecidableEq α] {β : Type}
    (m : List (α × β)) (k : α) (v : β)
    (h : m.any (fun p => decide (p.1 = k)) = true) :
    mapGet (m.map (fun p => if p.1 = k then (k, v) else p)) k = some v := by
  induction m with
  | nil => simp at h
  | cons p rest ih =>
    by_cases hp : p.1 = k
    · simp [mapGet, hp]
    · have h2 : rest.any (fun p => decide (p.1 = k)) = true := by
        have hfp : (decide (p.1 = k)) = false := by
          simp [hp]
        simpa [List.any_cons, hfp] using h
      simp only [List.map_cons, if_neg hp, mapGet, if_neg hp]
      exact ih h2

theorem mapGet_mapSet_self {α : Type} [DecidableEq α] {β : Type}
    (m : List (α × β)) (k : α) (v : β) :
    mapGet (mapSet m k v) k = some v := by
  unfold mapSet
  split
  · exact mapGet_map_overwrite m k v (by assumption)
  · rename_i hna
    refine mapGet_append_self m k v ?_
    intro p hp hpk
    refine hna ?_
    rw [List.any_eq_true]
    exact ⟨p, hp, by simpa using hpk⟩

theorem mapGet_map_overwrite_ne {α : Type} [DecidableEq α] {β : Type}
    (m : List (α × β)) (k k' : α) (v : β) (h : k' ≠ k) :
    mapGet (m.map (fun p => if p.1 = k then (k, v) else p)) k' =
      mapGet m k' := by
  induction m with
  | nil => rfl
  | cons p rest ih =>
    by_cases hp : p.1 = k
    · simp only [List.map_cons, if_pos hp, mapGet]
      rw [if_neg (fun hh => h hh.symm),
        if_neg (fun hh : p.1 = k' => h (hp ▸ hh).symm)]
      exact ih
    · simp only [List.map_cons, if_neg hp, mapGet]
      by_cases hpk : p.1 = k' <;> simp [hpk, ih]

theorem mapGet_mapSet_ne {α : Type} [DecidableEq α] {β : Type}
    (m : List (α × β)) (k k' : α) (v : β) (h : k' ≠ k) :
    mapGet (mapSet m k v) k' = mapGet m k' := by
  unfold mapSet
  split
  · exact mapGet_map_overwrite_ne m k k' v h
  · exact mapGet_append_ne m k k' v h

/-! ## Frame lemmas: which operations touch which registry fields -/

theorem removeListener_eventData (r : LumEventRegistry) (lid : Nat) :
    (r.removeListener lid).eventData = r.eventData := by
  unfold LumEventRegistry.removeListener
  split <;> rfl

theorem removeListener_store (r : LumEventRegistry) (lid : Nat) :
    (r.removeListener lid).store = r.store := by
  unfold LumEventRegistry.removeListener
  split <;> rfl

theorem removeListeners_cons (r : LumEventRegistry) (a : Nat)
    (rest : List Nat) :
    r.removeListeners (a :: rest) =
      (r.removeListener a).removeListeners rest := rfl

theorem removeListeners_eventData (lids : List Nat) :
    ∀ r : LumEventRegistry,
      (r.removeListeners lids).eventData = r.eventData := by
  induction lids with
  | nil => intro r; rfl
  | cons a rest ih =>
    intro r
    rw [removeListeners_cons, ih, removeListener_eventData]

theorem emit_eventData (r : LumEventRegistry) (types : TypesArg)
    (args : List Arg) :
    (r.emit types args).1.eventData = r.eventData := by
  unfold LumEventRegistry.emit
  exact removeListeners_eventData _ r

/-! ## An empty listener table dispatches nothing -/

theorem runTypes_empty (r : LumEventRegistry) (tg : Nat)
    (wilds : Option (List Nat)) (h : r.listenersFor = [])
    (ets : List Token) :
    ∀ (called : List Nat) (st : EmitSt),
      runTypes r tg wilds ets called st = st := by
  induction ets with
  | nil => intro called st; rfl
  | cons t rest ih =>
    intro called st
    simp only [runTypes, h, mapGet]
    exact ih called st

theorem runTargets_empty (r : LumEventRegistry)
    (wilds : Option (List Nat)) (ets : List Token)
    (h : r.listenersFor = []) (tgs : List Nat) :
    ∀ st : EmitSt, runTargets r wilds ets tgs st = st := by
  induction tgs with
  | nil => intro st; rfl
  | cons tg rest ih =>
    intro st
    simp only [runTargets, runTypes_empty r tg wilds h ets [] st]
    split
    · rfl
    · exact ih st

/-! ## Claim theorems -/

/-- C1: the spec claims a listener registered under the wildcard token
is a candidate for every requested type, so that with only a wildcard
listener registered, `emit("x")` still invokes it with the event's type
equal to `"x"`.  The code disagrees: `emit()` skips any requested type
that has no `listenersFor` entry of its own before the wildcard set is
unioned in, so the wildcard-only registry `rC1` emits nothing for the
unregistered type `"x"`, although the very same listener fires when the
requested type token has an entry (here, emitting `"*"` itself). -/
theorem emit_skips_wildcard_only_type :
    rC1.wildcard = Token.str "*" ∧
    mapGet rC1.listenersFor (Token.str "*") = some [1] ∧
    (rC1.store 1).eventTypes = [Token.str "*"] ∧
    (rC1.emit (TypesArg.str "x") []).2.emitted = [] ∧
    ((rC1.emit (TypesArg.str "*") []).2.emitted.map
      (fun e => (e.listenerId, e.type))) = [(1, Token.str "*")] := by
  decide

/-- C4: the spec claims every successful dispatch of a stateful type
pushes the resulting event onto the front of the type's history buffer.
The code never writes to `stateData` during `emit()`: on `r4` (where
`set("x", {keepState: 2})` created an empty buffer) a successful
dispatch of `"x"` leaves the buffer empty, and in general `emit()`
returns the `eventData` map unchanged. -/
theorem emit_never_updates_state_history :
    (mapGet r4.eventData (Token.str "x")).map
        (fun d => (d.keepState, d.stateData)) = some (2, some []) ∧
    (r4.emit (TypesArg.str "x") []).2.emitted.length = 1 ∧
    (mapGet (r4.emit (TypesArg.str "x") []).1.eventData (Token.str "x")).map
        (fun d => d.stateData) = some (some []) ∧
    ∀ (r : LumEventRegistry) (types : TypesArg) (args : List Arg),
      (r.emit types args).1.eventData = r.eventData :=
  ⟨by decide, by decide, by decide, emit_eventData⟩

/-- C5: the spec claims `listen()` on a stateful type with non-empty
history synchronously replays the stored snapshots to the new handler
before returning.  The code's `listen()` is `makeListener` followed by
`add`, neither of which constructs an event or calls a handler: on `r5`
(whose type `"x"` holds one stored snapshot) the call registers the
listener, dispatches nothing, and leaves the history untouched. -/
theorem listen_does_not_replay_state :
    (mapGet r5.eventData (Token.str "x")).map
        (fun d => (d.keepState, d.stateData.map List.length)) =
      some (2, some 1) ∧
    (r5.listen 1 spec5).2 = [] ∧
    (r5.listen 1 spec5).1.allListeners = [1] ∧
    mapGet (r5.listen 1 spec5).1.listenersFor (Token.str "x") =
      some [1] ∧
    (r5.listen 1 spec5).1.eventData = r5.eventData := by
  decide

/-- C6 counterexample: emitting on `rC6` (two listeners on `"t"`) with
a previous event as first argument constructs two events, but not every
one of them adopts the original's `data` and `origEvent` and records it
as `prevEvent` — the first construction shifts the original out of the
shared argument array, so the second event sees nothing to forward. -/
theorem later_event_misses_forwarding :
    (rC6.emit (TypesArg.str "t") [Arg.evArg pe0]).2.emitted.length = 2 ∧
    ¬ (∀ e ∈ (rC6.emit (TypesArg.str "t") [Arg.evArg pe0]).2.emitted,
        e.data = pe0.data ∧ e.origEventId = pe0.origEventId ∧
        e.prevEventId = some pe0.id) := by
  decide

/-- C7 counterexample: constructing an event whose first argument is a
previous event mutates the argument array held by the emit context —
`args.shift()` removes the leading event — so the context's array is
not left unchanged. -/
theorem event_construction_mutates_args :
    (LumEvent.create 1 0 (Token.str "t")
        [Arg.evArg pe0, Arg.nonObj 5] 0).2 = [Arg.nonObj 5] ∧
    ¬ ((LumEvent.create 1 0 (Token.str "t")
        [Arg.evArg pe0, Arg.nonObj 5] 0).2 =
      [Arg.evArg pe0, Arg.nonObj 5]) := by
  decide

/-- C7 amended: an event aliases the emit context's argument array
rather than copying it.  Construction leaves the array unchanged except
on the event-forwarding path, where the leading previous event is
shifted out of the shared array; the constructed event's own `args`
field is exactly that post-construction array. -/
theorem event_args_alias_shift (lid tg : Nat) (t : Token)
    (args : List Arg) (eid : Nat) :
    ((LumEvent.create lid tg t args eid).2 =
      match args with
      | Arg.evArg _ :: rest => rest
      | _ => args) ∧
    (LumEvent.create lid tg t args eid).1.args =
      (LumEvent.create lid tg t args eid).2 := by
  cases args with
  | nil => exact ⟨rfl, rfl⟩
  | cons a rest => cases a <;> exact ⟨rfl, rfl⟩

/-- C8 counterexample: `getEventTypes` applied to a `Set` argument does
not copy it into a distinct set — the source's `types instanceof Set`
branch returns the caller's `Set` object itself (`fresh = false` in the
model, whose `fresh` flag records exactly whether a `new Set` was
allocated for the result). -/
theorem getEventTypes_returns_set_argument :
    (rC1.getEventTypes (TypesArg.set [Token.str "a"])).tokens =
      [Token.str "a"] ∧
    ¬ ((rC1.getEventTypes (TypesArg.set [Token.str "a"])).fresh =
      true) := by
  decide

/-- C8 amended: type normalisation splits a string on the delimiter
into a fresh duplicate-free token set, wraps a symbol in a fresh
singleton, and copies any non-`Set` iterable into a fresh
duplicate-free set with the same members — but a `Set` argument is
returned as-is, not copied. -/
theorem getEventTypes_branches (r : LumEventRegistry) (arg : TypesArg) :
    ((r.getEventTypes arg).fresh =
      match arg with
      | TypesArg.set _ => false
      | _ => true) ∧
    (match arg with
      | TypesArg.str s => (r.getEventTypes arg).tokens = r.splitNames s ∧
          (r.getEventTypes arg).tokens.Nodup
      | TypesArg.sym i d => (r.getEventTypes arg).tokens = [Token.sym i d]
      | TypesArg.set ts => (r.getEventTypes arg).tokens = ts
      | TypesArg.iter ts => (r.getEventTypes arg).tokens.Nodup ∧
          ∀ x, x ∈ (r.getEventTypes arg).tokens ↔ x ∈ ts) := by
  cases arg with
  | str s => exact ⟨rfl, rfl, nodup_jsSetOf _⟩
  | sym i d => exact ⟨rfl, rfl⟩
  | set ts => exact ⟨rfl, rfl⟩
  | iter ts => exact ⟨rfl, nodup_jsSetOf _, fun x => mem_jsSetOf _ x⟩

/-- C9: `remove()` with the configured wildcard token calls
`removeAll()`, emptying both listener tables, and a subsequent `emit()`
of any types is a defined success whose emitted list is empty and which
changes no table (zero matching listeners is a silent no-op). -/
theorem remove_wildcard_clears_and_silences (r : LumEventRegistry)
    (types : TypesArg) (args : List Arg) :
    (r.remove (RemoveArg.tok r.wildcard)).allListeners = [] ∧
    (r.remove (RemoveArg.tok r.wildcard)).listenersFor = [] ∧
    ((r.remove (RemoveArg.tok r.wildcard)).emit types args).2.emitted =
      [] ∧
    ((r.remove (RemoveArg.tok r.wildcard)).emit types
      args).2.onceRemoved = [] ∧
    ((r.remove (RemoveArg.tok r.wildcard)).emit types args).1 =
      r.remove (RemoveArg.tok r.wildcard) := by
  have hra : r.remove (RemoveArg.tok r.wildcard) = r.removeAll := by
    simp [LumEventRegistry.remove]
  have hlf : (r.removeAll).listenersFor = [] := rfl
  have hemit : (r.removeAll).emit types args =
      (r.removeAll,
        { emitted := [], onceRemoved := [], args := args, nextId := 0,
          stop := false }) := by
    simp only [LumEventRegistry.emit]
    rw [runTargets_empty _ _ _ hlf]
    rfl
  rw [hra, hemit]
  exact ⟨rfl, rfl, rfl, rfl, rfl⟩

/-! ## Lemmas about `add` re-registration -/

theorem mapGet_append_of_none {α : Type} [DecidableEq α] {β : Type}
    {m : List (α × β)} {k : α} (h : mapGet m k = none)
    (v : β) : mapGet (m ++ [(k, v)]) k = some v := by
  induction m with
  | nil => simp [mapGet]
  | cons p rest ih =>
    by_cases hp : p.1 = k
    · rw [mapGet, if_pos hp] at h
      exact absurd h (by simp)
    · rw [mapGet, if_neg hp] at h
      simp only [List.cons_append, mapGet, if_neg hp]
      exact ih h

theorem mapGet_append_of_some {α : Type} [DecidableEq α] {β : Type}
    {m : List (α × β)} {k : α} {s : β} (h : mapGet m k = some s)
    (l2 : List (α × β)) : mapGet (m ++ l2) k = some s := by
  induction m with
  | nil => simp [mapGet] at h
  | cons p rest ih =>
    by_cases hp : p.1 = k
    · rw [mapGet, if_pos hp] at h
      simp only [List.cons_append, mapGet, if_pos hp]
      exact h
    · rw [mapGet, if_neg hp] at h
      simp only [List.cons_append, mapGet, if_neg hp]
      exact ih h

theorem addTypes_cons (lid : Nat) (et : Token) (rest : List Token)
    (lf : List (Token × List Nat)) :
    addTypes lid (et :: rest) lf =
      addTypes lid rest (match mapGet lf et with
        | some s => mapSet lf et (setInsert s lid)
        | none => lf ++ [(et, [lid])]) := rfl

theorem addTypes_step_self (lid : Nat) (et : Token)
    (lf : List (Token × List Nat)) :
    ∃ s, mapGet (match mapGet lf et with
        | some s0 => mapSet lf et (setInsert s0 lid)
        | none => lf ++ [(et, [lid])]) et = some s ∧ lid ∈ s := by
  cases h : mapGet lf et with
  | some s0 =>
    exact ⟨setInsert s0 lid, mapGet_mapSet_self lf et _,
      self_mem_setInsert s0 lid⟩
  | none =>
    exact ⟨[lid], mapGet_append_of_none h [lid], List.mem_singleton.2 rfl⟩

theorem addTypes_step_keeps (lid : Nat) (et k : Token)
    (lf : List (Token × List Nat))
    (h : ∃ s, mapGet lf k = some s ∧ lid ∈ s) :
    ∃ s, mapGet (match mapGet lf et with
        | some s0 => mapSet lf et (setInsert s0 lid)
        | none => lf ++ [(et, [lid])]) k = some s ∧ lid ∈ s := by
  obtain ⟨s, hs, hmem⟩ := h
  by_cases hek : et = k
  · subst hek
    rw [hs]
    exact ⟨setInsert s lid, mapGet_mapSet_self lf et _,
      (mem_setInsert s lid lid).2 (Or.inr hmem)⟩
  · cases h0 : mapGet lf et with
    | some s0 =>
      exact ⟨s, by rw [mapGet_mapSet_ne lf et k _ (fun hh => hek hh.symm)]
                   exact hs, hmem⟩
    | none => exact ⟨s, mapGet_append_of_some hs _, hmem⟩

theorem addTypes_keeps (lid : Nat) (k : Token) (ets : List Token) :
    ∀ lf : List (Token × List Nat),
      (∃ s, mapGet lf k = some s ∧ lid ∈ s) →
      ∃ s, mapGet (addTypes lid ets lf) k = some s ∧ lid ∈ s := by
  induction ets with
  | nil => intro lf h; exact h
  | cons et rest ih =>
    intro lf h
    rw [addTypes_cons]
    exact ih _ (addTypes_step_keeps lid et k lf h)

theorem addTypes_registers (lid : Nat) (k : Token) (ets : List Token) :
    ∀ lf : List (Token × List Nat), k ∈ ets →
      ∃ s, mapGet (addTypes lid ets lf) k = some s ∧ lid ∈ s := by
  induction ets with
  | nil => intro lf h; exact absurd h (List.not_mem_nil k)
  | cons et rest ih =>
    intro lf h
    rw [addTypes_cons]
    rcases List.mem_cons.1 h with rfl | h2
    · exact addTypes_keeps lid k rest _ (addTypes_step_self lid k lf)
    · exact ih _ h2

/-- C10: `removeAll()` clears only the registry's own two listener
tables; the listener heap (handlers, type sets, options), the per-type
`eventData` map and the target set are untouched, so a previously
registered listener re-added with `add()` afterwards ends up in
`allListeners` and in the `listenersFor` set of every one of its
original event types. -/
theorem removeAll_only_clears_tables (r : LumEventRegistry) (lid : Nat)
    (h : lid ∈ r.allListeners) :
    (r.removeAll).store = r.store ∧
    (r.removeAll).eventData = r.eventData ∧
    (r.removeAll).targets = r.targets ∧
    (r.removeAll).allListeners = [] ∧
    (r.removeAll).listenersFor = [] ∧
    lid ∈ ((r.removeAll).add lid).allListeners ∧
    ∀ et ∈ (r.store lid).eventTypes,
      ∃ s, mapGet ((r.removeAll).add lid).listenersFor et = some s ∧
        lid ∈ s := by
  refine ⟨rfl, rfl, rfl, rfl, rfl, self_mem_setInsert [] lid, ?_⟩
  intro et het
  exact addTypes_registers lid et (r.store lid).eventTypes [] het

/-- C10 witness: the re-registration fact applied to the concrete
registry `rBase` and its registered listener `1`. -/
theorem removeAll_only_clears_tables_check :
    1 ∈ ((rBase.removeAll).add 1).allListeners :=
  (removeAll_only_clears_tables rBase 1 (by decide)).2.2.2.2.2.1

/-! ## Unfolding equations for the dispatch loops -/

theorem runListeners_cons (r : LumEventRegistry) (tg : Nat) (t : Token)
    (l : Nat) (rest : List Nat) (called : List Nat) (st : EmitSt) :
    runListeners r tg t (l :: rest) called st =
      (if (emitStep r tg t l called st).2.stop = true
       then emitStep r tg t l called st
       else runListeners r tg t rest (emitStep r tg t l called st).1
         (emitStep r tg t l called st).2) := rfl

theorem runTypes_cons (r : LumEventRegistry) (tg : Nat)
    (wilds : Option (List Nat)) (t0 : Token) (rest : List Token)
    (called : List Nat) (st : EmitSt) :
    runTypes r tg wilds (t0 :: rest) called st =
      (match mapGet r.listenersFor t0 with
       | none => runTypes r tg wilds rest called st
       | some s =>
         if (runListeners r tg t0 (candsOf wilds s) called st).2.stop =
             true
         then (runListeners r tg t0 (candsOf wilds s) called st).2
         else runTypes r tg wilds rest
           (runListeners r tg t0 (candsOf wilds s) called st).1
           (runListeners r tg t0 (candsOf wilds s) called st).2) := rfl

theorem runTargets_cons (r : LumEventRegistry)
    (wilds : Option (List Nat)) (ets : List Token) (tg : Nat)
    (rest : List Nat) (st : EmitSt) :
    runTargets r wilds ets (tg :: rest) st =
      (if (runTypes r tg wilds ets [] st).stop = true
       then runTypes r tg wilds ets [] st
       else runTargets r wilds ets rest
         (runTypes r tg wilds ets [] st)) := rfl

/-! ## Counting lemmas for the per-target dedupe set -/

theorem countFor_append (a b : List LumEvent) (lid tg : Nat) :
    countFor (a ++ b) lid tg = countFor a lid tg + countFor b lid tg := by
  simp [countFor, List.filter_append]

theorem countFor_single (e : LumEvent) (lid tg : Nat) :
    countFor [e] lid tg =
      if e.listenerId = lid ∧ e.targetId = tg then 1 else 0 := by
  by_cases h : e.listenerId = lid ∧ e.targetId = tg
  · simp [countFor, List.filter, h]
  · simp [countFor, List.filter, h]

theorem create_coords (lid tg : Nat) (t : Token) (args : List Arg)
    (eid : Nat) :
    (LumEvent.create lid tg t args eid).1.listenerId = lid ∧
    (LumEvent.create lid tg t args eid).1.targetId = tg ∧
    (LumEvent.create lid tg t args eid).1.type = t := by
  cases args with
  | nil => exact ⟨rfl, rfl, rfl⟩
  | cons a rest => cases a <;> exact ⟨rfl, rfl, rfl⟩

theorem emitStep_count (r : LumEventRegistry) (tg : Nat) (t : Token)
    (l : Nat) (called : List Nat) (st : EmitSt)
    (hm : r.multiMatch = false) (lid tg' : Nat) :
    countFor (emitStep r tg t l called st).2.emitted lid tg' +
      (if lid ∈ (emitStep r tg t l called st).1 then 0 else 1) ≤
    countFor st.emitted lid tg' + (if lid ∈ called then 0 else 1) := by
  unfold emitStep
  split
  · rename_i h
    have hnc : l ∉ called := by
      rcases h with h1 | h1
      · rw [hm] at h1; exact absurd h1 (by simp)
      · exact h1
    simp only [LumEventListener.emitEvent]
    rw [countFor_append, countFor_single]
    obtain ⟨hl, htg, -⟩ := create_coords l tg t st.args st.nextId
    by_cases hll : lid = l
    · subst hll
      rw [if_pos (self_mem_setInsert called lid), if_neg hnc]
      have hle : (if (LumEvent.create lid tg t st.args
          st.nextId).1.listenerId = lid ∧ (LumEvent.create lid tg t st.args
          st.nextId).1.targetId = tg' then 1 else 0) ≤ 1 := by
        split
        · exact Nat.le_refl 1
        · exact Nat.zero_le 1
      omega
    · have hcnt : (if (LumEvent.create l tg t st.args
          st.nextId).1.listenerId = lid ∧ (LumEvent.create l tg t st.args
          st.nextId).1.targetId = tg' then 1 else 0) = 0 := by
        rw [if_neg]
        intro hc
        exact hll (hl ▸ hc.1).symm
      have hmem : (lid ∈ setInsert called l) ↔ lid ∈ called := by
        rw [mem_setInsert]
        exact ⟨fun hh => hh.elim (fun he => absurd he hll) id, Or.inr⟩
      rw [hcnt]
      by_cases hin : lid ∈ called
      · rw [if_pos (hmem.2 hin), if_pos hin]
      · rw [if_neg (fun hh => hin (hmem.1 hh)), if_neg hin]
  · exact Nat.le_refl _

theorem runListeners_count (r : LumEventRegistry) (tg : Nat) (t : Token)
    (hm : r.multiMatch = false) (lid tg' : Nat) (ls : List Nat) :
    ∀ (called : List Nat) (st : EmitSt),
      countFor (runListeners r tg t ls called st).2.emitted lid tg' +
        (if lid ∈ (runListeners r tg t ls called st).1 then 0 else 1) ≤
      countFor st.emitted lid tg' +
        (if lid ∈ called then 0 else 1) := by
  induction ls with
  | nil => intro called st; exact Nat.le_refl _
  | cons l rest ih =>
    intro called st
    rw [runListeners_cons]
    have hstep := emitStep_count r tg t l called st hm lid tg'
    split
    · exact hstep
    · exact Nat.le_trans
        (ih (emitStep r tg t l called st).1 (emitStep r tg t l called st).2)
        hstep

theorem runTypes_count (r : LumEventRegistry) (tg : Nat)
    (wilds : Option (List Nat)) (hm : r.multiMatch = false)
    (lid tg' : Nat) (ets : List Token) :
    ∀ (called : List Nat) (st : EmitSt),
      countFor (runTypes r tg wilds ets called st).emitted lid tg' ≤
      countFor st.emitted lid tg' +
        (if lid ∈ called then 0 else 1) := by
  induction ets with
  | nil => intro called st; exact Nat.le_add_right _ _
  | cons t0 rest ih =>
    intro called st
    rw [runTypes_cons]
    split
    · exact ih called st
    · rename_i s hlk
      have hrl := runListeners_count r tg t0 hm lid tg'
        (candsOf wilds s) called st
      split
      · exact Nat.le_trans (Nat.le_add_right _ _) hrl
      · exact Nat.le_trans
          (ih (runListeners r tg t0 (candsOf wilds s) called st).1
            (runListeners r tg t0 (candsOf wilds s) called st).2) hrl

theorem emitStep_count_other (r : LumEventRegistry) (tg : Nat)
    (t : Token) (l : Nat) (called : List Nat) (st : EmitSt)
    (lid tg' : Nat) (htg : tg' ≠ tg) :
    countFor (emitStep r tg t l called st).2.emitted lid tg' =
      countFor st.emitted lid tg' := by
  unfold emitStep
  split
  · simp only [LumEventListener.emitEvent]
    rw [countFor_append, countFor_single]
    obtain ⟨-, htg2, -⟩ := create_coords l tg t st.args st.nextId
    rw [if_neg (fun hc => htg (htg2 ▸ hc.2).symm)]
    exact Nat.add_zero _
  · rfl

theorem runListeners_count_other (r : LumEventRegistry) (tg : Nat)
    (t : Token) (lid tg' : Nat) (htg : tg' ≠ tg) (ls : List Nat) :
    ∀ (called : List Nat) (st : EmitSt),
      countFor (runListeners r tg t ls called st).2.emitted lid tg' =
        countFor st.emitted lid tg' := by
  induction ls with
  | nil => intro called st; rfl
  | cons l rest ih =>
    intro called st
    rw [runListeners_cons]
    split
    · exact emitStep_count_other r tg t l called st lid tg' htg
    · exact (ih _ _).trans
        (emitStep_count_other r tg t l called st lid tg' htg)

theorem runTypes_count_other (r : LumEventRegistry) (tg : Nat)
    (wilds : Option (List Nat)) (lid tg' : Nat) (htg : tg' ≠ tg)
    (ets : List Token) :
    ∀ (called : List Nat) (st : EmitSt),
      countFor (runTypes r tg wilds ets called st).emitted lid tg' =
        countFor st.emitted lid tg' := by
  induction ets with
  | nil => intro called st; rfl
  | cons t0 rest ih =>
    intro called st
    rw [runTypes_cons]
    split
    · exact ih called st
    · rename_i s hlk
      split
      · exact runListeners_count_other r tg t0 lid tg' htg
          (candsOf wilds s) called st
      · exact (ih _ _).trans (runListeners_count_other r tg t0 lid tg'
          htg (candsOf wilds s) called st)

theorem runTargets_count (r : LumEventRegistry)
    (wilds : Option (List Nat)) (ets : List Token)
    (hm : r.multiMatch = false) (lid tg : Nat) (tgs : List Nat) :
    ∀ st : EmitSt, tgs.Nodup →
      countFor (runTargets r wilds ets tgs st).emitted lid tg ≤
        countFor st.emitted lid tg + (if tg ∈ tgs then 1 else 0) := by
  induction tgs with
  | nil =>
    intro st _
    rw [if_neg (List.not_mem_nil tg)]
    exact Nat.le_refl _
  | cons tg0 rest ih =>
    intro st hnd
    rw [runTargets_cons]
    obtain ⟨hnr, hndr⟩ := List.nodup_cons.mp hnd
    by_cases htg : tg = tg0
    · subst htg
      have h1 : countFor (runTypes r tg wilds ets [] st).emitted lid tg ≤
          countFor st.emitted lid tg + 1 := by
        have h2 := runTypes_count r tg wilds hm lid tg ets [] st
        rw [if_neg (List.not_mem_nil lid)] at h2
        exact h2
      rw [if_pos (List.mem_cons_self _ _)]
      split
      · exact h1
      · have h2 := ih (runTypes r tg wilds ets [] st) hndr
        rw [if_neg hnr] at h2
        exact Nat.le_trans h2 h1
    · have heq : countFor (runTypes r tg0 wilds ets [] st).emitted lid
          tg = countFor st.emitted lid tg :=
        runTypes_count_other r tg0 wilds lid tg htg ets [] st
      split
      · rw [heq]; exact Nat.le_add_right _ _
      · have h2 := ih (runTypes r tg0 wilds ets [] st) hndr
        rw [heq] at h2
        refine Nat.le_trans h2 (Nat.add_le_add_left ?_ _)
        by_cases hr : tg ∈ rest
        · rw [if_pos hr, if_pos (List.mem_cons_of_mem _ hr)]
        · rw [if_neg hr]
          exact Nat.zero_le _

/-- C2: with `multiMatch = false`, any listener appears at most once per
target in the emitted list of a single `emit()` call — the per-target
dedupe set admits each listener once no matter how many requested types
it matches — and on the concrete registry `rTwo`, whose listener `1` is
registered for both requested types `"a"` and `"b"` on target `10`,
that listener is invoked exactly once. -/
theorem emit_dedupes_listener_per_target :
    (∀ (r : LumEventRegistry) (types : TypesArg) (args : List Arg)
        (lid tg : Nat), r.multiMatch = false →
      countFor (r.emit types args).2.emitted lid tg ≤ 1) ∧
    countFor (rTwo.emit (TypesArg.str "a b") []).2.emitted 1 10 = 1 := by
  constructor
  · intro r types args lid tg hm
    have hinit : countFor (r.emit types args).2.emitted lid tg =
        countFor (runTargets r (mapGet r.listenersFor r.wildcard)
          ((r.getEventTypes types).tokens) (jsSetOf r.targets)
          { emitted := [], onceRemoved := [], args := args, nextId := 0,
            stop := false }).emitted lid tg := rfl
    rw [hinit]
    refine Nat.le_trans (runTargets_count r _ _ hm lid tg _ _
      (nodup_jsSetOf r.targets)) ?_
    have hz : countFor [] lid tg = 0 := rfl
    rw [hz]
    split
    · exact Nat.le_refl 1
    · exact Nat.zero_le 1
  · decide

/-- C2 witness: the at-most-once bound applied to the concrete
registry `rTwo` at its listener and target. -/
theorem emit_dedupes_listener_per_target_check :
    countFor (rTwo.emit (TypesArg.str "a b") []).2.emitted 1 10 ≤ 1 :=
  emit_dedupes_listener_per_target.1 rTwo (TypesArg.str "a b") [] 1 10
    rfl

/-! ## Characterisations of one dispatch step -/

theorem emitStep_fire_eq (r : LumEventRegistry) (tg : Nat) (t : Token)
    (l : Nat) (called : List Nat) (st : EmitSt)
    (h : r.multiMatch = true ∨ l ∉ called) :
    emitStep r tg t l called st =
      (setInsert called l,
       { emitted := st.emitted ++
           [(LumEvent.create l tg t st.args st.nextId).1],
         onceRemoved := if (r.store l).once = true
           then setInsert st.onceRemoved l else st.onceRemoved,
         args := (LumEvent.create l tg t st.args st.nextId).2,
         nextId := st.nextId + 1,
         stop := st.stop || (r.store l).stops }) := by
  unfold emitStep
  rw [if_pos h]
  rfl

theorem emitStep_skip_eq (r : LumEventRegistry) (tg : Nat) (t : Token)
    (l : Nat) (called : List Nat) (st : EmitSt)
    (h : ¬ (r.multiMatch = true ∨ l ∉ called)) :
    emitStep r tg t l called st = (called, st) := by
  unfold emitStep
  rw [if_neg h]

/-! ## The stop flag never rises when no handler stops -/

theorem emitStep_stop (r : LumEventRegistry) (tg : Nat) (t : Token)
    (l : Nat) (called : List Nat) (st : EmitSt) (hns : NoStops r) :
    (emitStep r tg t l called st).2.stop = st.stop := by
  by_cases h : r.multiMatch = true ∨ l ∉ called
  · rw [emitStep_fire_eq r tg t l called st h]
    show (st.stop || (r.store l).stops) = st.stop
    rw [hns l]
    exact Bool.or_false _
  · rw [emitStep_skip_eq r tg t l called st h]

theorem runListeners_stop (r : LumEventRegistry) (tg : Nat) (t : Token)
    (hns : NoStops r) (ls : List Nat) :
    ∀ (called : List Nat) (st : EmitSt),
      (runListeners r tg t ls called st).2.stop = st.stop := by
  induction ls with
  | nil => intro called st; rfl
  | cons l rest ih =>
    intro called st
    rw [runListeners_cons]
    split
    · exact emitStep_stop r tg t l called st hns
    · exact (ih _ _).trans (emitStep_stop r tg t l called st hns)

theorem runTypes_stop (r : LumEventRegistry) (tg : Nat)
    (wilds : Option (List Nat)) (hns : NoStops r) (ets : List Token) :
    ∀ (called : List Nat) (st : EmitSt),
      (runTypes r tg wilds ets called st).stop = st.stop := by
  induction ets with
  | nil => intro called st; rfl
  | cons t0 rest ih =>
    intro called st
    rw [runTypes_cons]
    split
    · exact ih called st
    · rename_i s hlk
      split
      · exact runListeners_stop r tg t0 hns (candsOf wilds s) called st
      · exact (ih _ _).trans
          (runListeners_stop r tg t0 hns (candsOf wilds s) called st)

/-! ## Emitted events are only ever appended -/

theorem emitStep_mem (r : LumEventRegistry) (tg : Nat) (t : Token)
    (l : Nat) (called : List Nat) (st : EmitSt) (x : LumEvent)
    (hx : x ∈ st.emitted) :
    x ∈ (emitStep r tg t l called st).2.emitted := by
  by_cases h : r.multiMatch = true ∨ l ∉ called
  · rw [emitStep_fire_eq r tg t l called st h]
    exact List.mem_append_left _ hx
  · rw [emitStep_skip_eq r tg t l called st h]
    exact hx

theorem runListeners_mem (r : LumEventRegistry) (tg : Nat) (t : Token)
    (ls : List Nat) :
    ∀ (called : List Nat) (st : EmitSt) (x : LumEvent),
      x ∈ st.emitted →
      x ∈ (runListeners r tg t ls called st).2.emitted := by
  induction ls with
  | nil => intro called st x hx; exact hx
  | cons l rest ih =>
    intro called st x hx
    rw [runListeners_cons]
    split
    · exact emitStep_mem r tg t l called st x hx
    · exact ih _ _ x (emitStep_mem r tg t l called st x hx)

theorem runTypes_mem (r : LumEventRegistry) (tg : Nat)
    (wilds : Option (List Nat)) (ets : List Token) :
    ∀ (called : List Nat) (st : EmitSt) (x : LumEvent),
      x ∈ st.emitted →
      x ∈ (runTypes r tg wilds ets called st).emitted := by
  induction ets with
  | nil => intro called st x hx; exact hx
  | cons t0 rest ih =>
    intro called st x hx
    rw [runTypes_cons]
    split
    · exact ih called st x hx
    · rename_i s hlk
      split
      · exact runListeners_mem r tg t0 (candsOf wilds s) called st x hx
      · exact ih _ _ x
          (runListeners_mem r tg t0 (candsOf wilds s) called st x hx)

theorem runTargets_mem (r : LumEventRegistry)
    (wilds : Option (List Nat)) (ets : List Token) (tgs : List Nat) :
    ∀ (st : EmitSt) (x : LumEvent),
      x ∈ st.emitted →
      x ∈ (runTargets r wilds ets tgs st).emitted := by
  induction tgs with
  | nil => intro st x hx; exact hx
  | cons tg0 rest ih =>
    intro st x hx
    rw [runTargets_cons]
    split
    · exact runTypes_mem r tg0 wilds ets [] st x hx
    · exact ih _ x (runTypes_mem r tg0 wilds ets [] st x hx)

/-! ## With `multiMatch` on and no stops, every candidate fires -/

theorem runListeners_complete (r : LumEventRegistry) (tg : Nat)
    (t : Token) (hmm : r.multiMatch = true) (hns : NoStops r)
    (ls : List Nat) :
    ∀ (called : List Nat) (st : EmitSt), st.stop = false →
      ∀ l ∈ ls, ∃ e ∈ (runListeners r tg t ls called st).2.emitted,
        e.listenerId = l ∧ e.targetId = tg ∧ e.type = t := by
  induction ls with
  | nil =>
    intro called st hstop l hl
    exact absurd hl (List.not_mem_nil l)
  | cons l0 rest ih =>
    intro called st hstop l hl
    rw [runListeners_cons]
    have hstop2 : (emitStep r tg t l0 called st).2.stop = false := by
      rw [emitStep_stop r tg t l0 called st hns, hstop]
    split
    · rename_i hc
      rw [hstop2] at hc
      exact absurd hc (by decide)
    · rcases List.mem_cons.1 hl with rfl | hrest
      · refine ⟨(LumEvent.create l tg t st.args st.nextId).1, ?_,
          create_coords l tg t st.args st.nextId⟩
        refine runListeners_mem r tg t rest _ _ _ ?_
        rw [emitStep_fire_eq r tg t l called st (Or.inl hmm)]
        exact List.mem_append_right _ (List.mem_singleton.2 rfl)
      · exact ih _ _ hstop2 l hrest

theorem runTypes_complete (r : LumEventRegistry) (tg : Nat)
    (wilds : Option (List Nat)) (hmm : r.multiMatch = true)
    (hns : NoStops r) (ets : List Token) :
    ∀ (called : List Nat) (st : EmitSt), st.stop = false →
      ∀ t ∈ ets, ∀ s, mapGet r.listenersFor t = some s →
      ∀ l ∈ candsOf wilds s,
      ∃ e ∈ (runTypes r tg wilds ets called st).emitted,
        e.listenerId = l ∧ e.targetId = tg ∧ e.type = t := by
  induction ets with
  | nil =>
    intro called st hstop t ht
    exact absurd ht (List.not_mem_nil t)
  | cons t0 rest ih =>
    intro called st hstop t ht s hs l hl
    rw [runTypes_cons]
    split
    · rename_i hnone
      rcases List.mem_cons.1 ht with rfl | hrest
      · rw [hs] at hnone
        exact Option.noConfusion hnone
      · exact ih called st hstop t hrest s hs l hl
    · rename_i s0 hlk
      have hstop2 : (runListeners r tg t0 (candsOf wilds s0) called
          st).2.stop = false := by
        rw [runListeners_stop r tg t0 hns (candsOf wilds s0) called st,
          hstop]
      split
      · rename_i hc
        rw [hstop2] at hc
        exact absurd hc (by decide)
      · rcases List.mem_cons.1 ht with rfl | hrest
        · rw [hs] at hlk
          injection hlk with hss
          subst hss
          obtain ⟨e, he, hp⟩ := runListeners_complete r tg t hmm hns
            (candsOf wilds s) called st hstop l hl
          exact ⟨e, runTypes_mem r tg wilds rest _ _ e he, hp⟩
        · exact ih _ _ hstop2 t hrest s hs l hl

theorem runTargets_complete (r : LumEventRegistry)
    (wilds : Option (List Nat)) (ets : List Token)
    (hmm : r.multiMatch = true) (hns : NoStops r) (tgs : List Nat) :
    ∀ st : EmitSt, st.stop = false →
      ∀ tg ∈ tgs, ∀ t ∈ ets, ∀ s, mapGet r.listenersFor t = some s →
      ∀ l ∈ candsOf wilds s,
      ∃ e ∈ (runTargets r wilds ets tgs st).emitted,
        e.listenerId = l ∧ e.targetId = tg ∧ e.type = t := by
  induction tgs with
  | nil =>
    intro st hstop tg htg
    exact absurd htg (List.not_mem_nil tg)
  | cons tg0 rest ih =>
    intro st hstop tg htg t ht s hs l hl
    rw [runTargets_cons]
    have hstop2 : (runTypes r tg0 wilds ets [] st).stop = false := by
      rw [runTypes_stop r tg0 wilds hns ets [] st, hstop]
    split
    · rename_i hc
      rw [hstop2] at hc
      exact absurd hc (by decide)
    · rcases List.mem_cons.1 htg with rfl | hrest
      · obtain ⟨e, he, hp⟩ := runTypes_complete r tg wilds hmm hns ets
          [] st hstop t ht s hs l hl
        exact ⟨e, runTargets_mem r wilds ets rest _ e he, hp⟩
      · exact ih _ hstop2 tg hrest t ht s hs l hl

/-! ## Every emitted `once` listener lands in the pending-removal set -/

theorem emitStep_once (r : LumEventRegistry) (tg : Nat) (t : Token)
    (l : Nat) (called : List Nat) (st : EmitSt)
    (hpre : ∀ e ∈ st.emitted, (r.store e.listenerId).once = true →
      e.listenerId ∈ st.onceRemoved) :
    ∀ e ∈ (emitStep r tg t l called st).2.emitted,
      (r.store e.listenerId).once = true →
      e.listenerId ∈ (emitStep r tg t l called st).2.onceRemoved := by
  by_cases h : r.multiMatch = true ∨ l ∉ called
  · rw [emitStep_fire_eq r tg t l called st h]
    intro e he honce
    show e.listenerId ∈ (if (r.store l).once = true
      then setInsert st.onceRemoved l else st.onceRemoved)
    rcases List.mem_append.1 he with h1 | h1
    · have h2 := hpre e h1 honce
      split
      · exact (mem_setInsert _ _ _).2 (Or.inr h2)
      · exact h2
    · rw [List.mem_singleton] at h1
      subst h1
      obtain ⟨hl, -, -⟩ := create_coords l tg t st.args st.nextId
      rw [hl] at honce ⊢
      rw [if_pos honce]
      exact self_mem_setInsert _ _
  · rw [emitStep_skip_eq r tg t l called st h]
    exact hpre

theorem runListeners_once (r : LumEventRegistry) (tg : Nat) (t : Token)
    (ls : List Nat) :
    ∀ (called : List Nat) (st : EmitSt),
      (∀ e ∈ st.emitted, (r.store e.listenerId).once = true →
        e.listenerId ∈ st.onceRemoved) →
      ∀ e ∈ (runListeners r tg t ls called st).2.emitted,
        (r.store e.listenerId).once = true →
        e.listenerId ∈ (runListeners r tg t ls called st).2.onceRemoved := by
  induction ls with
  | nil => intro called st hpre; exact hpre
  | cons l rest ih =>
    intro called st hpre
    rw [runListeners_cons]
    split
    · exact emitStep_once r tg t l called st hpre
    · exact ih _ _ (emitStep_once r tg t l called st hpre)

theorem runTypes_once (r : LumEventRegistry) (tg : Nat)
    (wilds : Option (List Nat)) (ets : List Token) :
    ∀ (called : List Nat) (st : EmitSt),
      (∀ e ∈ st.emitted, (r.store e.listenerId).once = true →
        e.listenerId ∈ st.onceRemoved) →
      ∀ e ∈ (runTypes r tg wilds ets called st).emitted,
        (r.store e.listenerId).once = true →
        e.listenerId ∈ (runTypes r tg wilds ets called st).onceRemoved := by
  induction ets with
  | nil => intro called st hpre; exact hpre
  | cons t0 rest ih =>
    intro called st hpre
    rw [runTypes_cons]
    split
    · exact ih called st hpre
    · rename_i s hlk
      split
      · exact runListeners_once r tg t0 (candsOf wilds s) called st hpre
      · exact ih _ _
          (runListeners_once r tg t0 (candsOf wilds s) called st hpre)

theorem runTargets_once (r : LumEventRegistry)
    (wilds : Option (List Nat)) (ets : List Token) (tgs : List Nat) :
    ∀ st : EmitSt,
      (∀ e ∈ st.emitted, (r.store e.listenerId).once = true →
        e.listenerId ∈ st.onceRemoved) →
      ∀ e ∈ (runTargets r wilds ets tgs st).emitted,
        (r.store e.listenerId).once = true →
        e.listenerId ∈ (runTargets r wilds ets tgs st).onceRemoved := by
  induction tgs with
  | nil => intro st hpre; exact hpre
  | cons tg0 rest ih =>
    intro st hpre
    rw [runTargets_cons]
    split
    · exact runTypes_once r tg0 wilds ets [] st hpre
    · exact ih _ (runTypes_once r tg0 wilds ets [] st hpre)

/-! ## Deferred removal of `once` listeners empties their table entries -/

theorem mem_filter_ne {s : List Nat} {x lid : Nat} :
    x ∈ s.filter (fun y => decide (y ≠ lid)) ↔ x ∈ s ∧ x ≠ lid := by
  simp [List.mem_filter]

theorem lfdel_entry (lid : Nat) (et : Token)
    (lf : List (Token × List Nat)) (t : Token) (s' : List Nat)
    (h : (t, s') ∈ lf.map (fun p =>
      if p.1 = et then (p.1, p.2.filter (fun x => decide (x ≠ lid)))
      else p)) :
    ∃ s0, (t, s0) ∈ lf ∧ ∀ x ∈ s', x ∈ s0 := by
  rcases List.mem_map.1 h with ⟨p, hp, heq⟩
  by_cases hc : p.1 = et
  · rw [if_pos hc] at heq
    have h1 : p.1 = t := congrArg Prod.fst heq
    have h2 : p.2.filter (fun x => decide (x ≠ lid)) = s' :=
      congrArg Prod.snd heq
    refine ⟨p.2, ?_, ?_⟩
    · rw [← h1]
      simpa using hp
    · intro x hx
      rw [← h2] at hx
      exact (mem_filter_ne.1 hx).1
  · rw [if_neg hc] at heq
    rw [heq] at hp
    exact ⟨s', hp, fun x hx => hx⟩

theorem lfdel_fold_entry (lid : Nat) (ets : List Token) :
    ∀ (lf : List (Token × List Nat)) (t : Token) (s' : List Nat),
      (t, s') ∈ ets.foldl (fun lf et => lf.map (fun p =>
        if p.1 = et then (p.1, p.2.filter (fun x => decide (x ≠ lid)))
        else p)) lf →
      ∃ s0, (t, s0) ∈ lf ∧ ∀ x ∈ s', x ∈ s0 := by
  induction ets with
  | nil => intro lf t s' h; exact ⟨s', h, fun x hx => hx⟩
  | cons et rest ih =>
    intro lf t s' h
    rw [List.foldl_cons] at h
    obtain ⟨s1, hs1, hsub1⟩ := ih _ t s' h
    obtain ⟨s0, hs0, hsub0⟩ := lfdel_entry lid et lf t s1 hs1
    exact ⟨s0, hs0, fun x hx => hsub0 x (hsub1 x hx)⟩

theorem lfdel_sets (lid : Nat) (t : Token)
    (lf : List (Token × List Nat)) :
    ∀ s', (t, s') ∈ lf.map (fun p =>
      if p.1 = t then (p.1, p.2.filter (fun x => decide (x ≠ lid)))
      else p) → lid ∉ s' := by
  intro s' h hmem
  rcases List.mem_map.1 h with ⟨p, hp, heq⟩
  by_cases hc : p.1 = t
  · rw [if_pos hc] at heq
    have h2 : p.2.filter (fun x => decide (x ≠ lid)) = s' :=
      congrArg Prod.snd heq
    rw [← h2] at hmem
    exact (mem_filter_ne.1 hmem).2 rfl
  · rw [if_neg hc] at heq
    exact hc (by rw [heq])

theorem lfdel_keeps (lid : Nat) (t et : Token)
    (lf : List (Token × List Nat))
    (hP : ∀ s', (t, s') ∈ lf → lid ∉ s') :
    ∀ s', (t, s') ∈ lf.map (fun p =>
      if p.1 = et then (p.1, p.2.filter (fun x => decide (x ≠ lid)))
      else p) → lid ∉ s' := by
  intro s' h hmem
  obtain ⟨s0, hs0, hsub⟩ := lfdel_entry lid et lf t s' h
  exact hP s0 hs0 (hsub lid hmem)

theorem lfdel_fold_keeps (lid : Nat) (t : Token) (ets : List Token) :
    ∀ (lf : List (Token × List Nat)),
      (∀ s', (t, s') ∈ lf → lid ∉ s') →
      ∀ s', (t, s') ∈ ets.foldl (fun lf et => lf.map (fun p =>
        if p.1 = et then (p.1, p.2.filter (fun x => decide (x ≠ lid)))
        else p)) lf → lid ∉ s' := by
  induction ets with
  | nil => intro lf hP s' h; exact hP s' h
  | cons et rest ih =>
    intro lf hP s' h
    rw [List.foldl_cons] at h
    exact ih _ (lfdel_keeps lid t et lf hP) s' h

theorem lfdel_fold_sets (lid : Nat) (t : Token) (ets : List Token) :
    ∀ (lf : List (Token × List Nat)), t ∈ ets →
      ∀ s', (t, s') ∈ ets.foldl (fun lf et => lf.map (fun p =>
        if p.1 = et then (p.1, p.2.filter (fun x => decide (x ≠ lid)))
        else p)) lf → lid ∉ s' := by
  induction ets with
  | nil => intro lf ht; exact absurd ht (List.not_mem_nil t)
  | cons et rest ih =>
    intro lf ht s' h
    rw [List.foldl_cons] at h
    rcases List.mem_cons.1 ht with rfl | hrest
    · exact lfdel_fold_keeps lid t rest _ (lfdel_sets lid t lf) s' h
    · exact ih _ hrest s' h

theorem removeListener_absent (r : LumEventRegistry) (lid : Nat)
    (hwf : WFRegistry r) :
    lid ∉ (r.removeListener lid).allListeners ∧
    ∀ t s, (t, s) ∈ (r.removeListener lid).listenersFor → lid ∉ s := by
  unfold LumEventRegistry.removeListener
  split
  · rename_i hin
    constructor
    · intro hmem
      exact (mem_filter_ne.1 hmem).2 rfl
    · intro t s hts hmem
      by_cases hte : t ∈ (r.store lid).eventTypes
      · exact lfdel_fold_sets lid t (r.store lid).eventTypes
          r.listenersFor hte s hts hmem
      · obtain ⟨s0, hs0, hsub⟩ := lfdel_fold_entry lid
          (r.store lid).eventTypes r.listenersFor t s hts
        exact hte (hwf t s0 hs0 lid (hsub lid hmem)).2
  · rename_i hnin
    refine ⟨hnin, ?_⟩
    intro t s hts hmem
    exact hnin (hwf t s hts lid hmem).1

theorem removeListener_sub (r : LumEventRegistry) (j : Nat) :
    (∀ x, x ∈ (r.removeListener j).allListeners →
      x ∈ r.allListeners) ∧
    (∀ t s, (t, s) ∈ (r.removeListener j).listenersFor →
      ∃ s0, (t, s0) ∈ r.listenersFor ∧ ∀ x ∈ s, x ∈ s0) := by
  unfold LumEventRegistry.removeListener
  split
  · constructor
    · intro x hx
      exact (mem_filter_ne.1 hx).1
    · intro t s hts
      exact lfdel_fold_entry j (r.store j).eventTypes r.listenersFor
        t s hts
  · exact ⟨fun x hx => hx, fun t s hts => ⟨s, hts, fun x hx => hx⟩⟩

theorem removeListener_wf (r : LumEventRegistry) (j : Nat)
    (hwf : WFRegistry r) : WFRegistry (r.removeListener j) := by
  intro t s hts l hl
  obtain ⟨s0, hs0, hsub⟩ := (removeListener_sub r j).2 t s hts
  obtain ⟨hall, hty⟩ := hwf t s0 hs0 l (hsub l hl)
  refine ⟨?_, by rw [removeListener_store r j]; exact hty⟩
  by_cases hj : j ∈ r.allListeners
  · have hrm : r.removeListener j = { r with
        allListeners := r.allListeners.filter (fun x => decide (x ≠ j)),
        listenersFor := (r.store j).eventTypes.foldl
          (fun lf et => lf.map (fun p =>
            if p.1 = et then
              (p.1, p.2.filter (fun x => decide (x ≠ j)))
            else p)) r.listenersFor } := by
      unfold LumEventRegistry.removeListener
      rw [if_pos hj]
    rw [hrm] at hts ⊢
    refine mem_filter_ne.2 ⟨hall, ?_⟩
    intro hlj
    subst hlj
    exact lfdel_fold_sets l t (r.store l).eventTypes r.listenersFor
      hty s hts hl
  · have hrm : r.removeListener j = r := by
      unfold LumEventRegistry.removeListener
      rw [if_neg hj]
    rw [hrm]
    exact hall

theorem absent_preserved (lid : Nat) (lids : List Nat) :
    ∀ r : LumEventRegistry,
      (lid ∉ r.allListeners ∧
        ∀ t s, (t, s) ∈ r.listenersFor → lid ∉ s) →
      lid ∉ (r.removeListeners lids).allListeners ∧
      ∀ t s, (t, s) ∈ (r.removeListeners lids).listenersFor →
        lid ∉ s := by
  induction lids with
  | nil => intro r h; exact h
  | cons j rest ih =>
    intro r h
    rw [removeListeners_cons]
    refine ih _ ⟨?_, ?_⟩
    · intro hmem
      exact h.1 ((removeListener_sub r j).1 lid hmem)
    · intro t s hts hmem
      obtain ⟨s0, hs0, hsub⟩ := (removeListener_sub r j).2 t s hts
      exact h.2 t s0 hs0 (hsub lid hmem)

theorem removeListeners_absent (lid : Nat) (lids : List Nat) :
    ∀ r : LumEventRegistry, WFRegistry r → lid ∈ lids →
      lid ∉ (r.removeListeners lids).allListeners ∧
      ∀ t s, (t, s) ∈ (r.removeListeners lids).listenersFor →
        lid ∉ s := by
  induction lids with
  | nil => intro r _ h; exact absurd h (List.not_mem_nil lid)
  | cons j rest ih =>
    intro r hwf hmem
    rw [removeListeners_cons]
    rcases List.mem_cons.1 hmem with rfl | hrest
    · exact absent_preserved lid rest _ (removeListener_absent r lid hwf)
    · exact ih _ (removeListener_wf r j hwf) hrest

/-- C3: hypotheses: `multiMatch` is on, no handler raises the stop
flag, and the tables are well formed.  Then (1) a `once` listener is
not removed while the dispatch iteration is running: for every resolved
target and every requested type whose candidate set contains it, the
emitted list holds an event with that listener, target and type — every
delivery it matches within the single call; and (2) once it has been
invoked at all, it is absent from `allListeners` and from every
`listenersFor` set of the registry returned by `emit()`, the removal
having been applied only after the full pass. -/
theorem once_listener_full_pass_then_removed (r : LumEventRegistry)
    (types : TypesArg) (args : List Arg) (hmm : r.multiMatch = true)
    (hns : NoStops r) (hwf : WFRegistry r) (lid : Nat)
    (honce : (r.store lid).once = true) :
    (∀ tg ∈ jsSetOf r.targets, ∀ t ∈ (r.getEventTypes types).tokens,
      ∀ s, mapGet r.listenersFor t = some s →
      lid ∈ candsOf (mapGet r.listenersFor r.wildcard) s →
      ∃ e ∈ (r.emit types args).2.emitted,
        e.listenerId = lid ∧ e.targetId = tg ∧ e.type = t) ∧
    ((∃ e ∈ (r.emit types args).2.emitted, e.listenerId = lid) →
      lid ∉ (r.emit types args).1.allListeners ∧
      ∀ t s, (t, s) ∈ (r.emit types args).1.listenersFor →
        lid ∉ s) := by
  have hemit2 : (r.emit types args).2 =
      runTargets r (mapGet r.listenersFor r.wildcard)
        ((r.getEventTypes types).tokens) (jsSetOf r.targets)
        { emitted := [], onceRemoved := [], args := args, nextId := 0,
          stop := false } := rfl
  have hemit1 : (r.emit types args).1 =
      r.removeListeners ((r.emit types args).2.onceRemoved) := rfl
  constructor
  · intro tg htg t ht s hs hl
    rw [hemit2]
    exact runTargets_complete r _ _ hmm hns _ _ rfl tg htg t ht s hs
      lid hl
  · rintro ⟨e, he, hid⟩
    rw [hemit2] at he
    have honceInv := runTargets_once r
      (mapGet r.listenersFor r.wildcard)
      ((r.getEventTypes types).tokens) (jsSetOf r.targets)
      { emitted := [], onceRemoved := [], args := args, nextId := 0,
        stop := false }
      (fun e2 he2 => absurd he2 (List.not_mem_nil e2))
      e he (by rw [hid]; exact honce)
    rw [hid] at honceInv
    rw [hemit1]
    exact removeListeners_absent lid
      ((r.emit types args).2.onceRemoved) r hwf
      (by rw [hemit2]; exact honceInv)

/-- The concrete registry `rOnce` has well-formed tables. -/
theorem rOnce_wf : WFRegistry rOnce := by
  intro t s hts l hl
  have hts2 : (t, s) ∈ [(Token.str "a", [1])] := hts
  rw [List.mem_singleton, Prod.mk.injEq] at hts2
  obtain ⟨rfl, rfl⟩ := hts2
  have hl2 : l ∈ [1] := hl
  rw [List.mem_singleton] at hl2
  subst hl2
  exact ⟨by decide, by decide⟩

/-- C3 witness: the `once` listener of `rOnce` is invoked by
`emit("a")` and is gone from `allListeners` right after the call. -/
theorem once_listener_full_pass_then_removed_check :
    (rOnce.emit (TypesArg.str "a") []).2.emitted.length = 1 ∧
    1 ∉ (rOnce.emit (TypesArg.str "a") []).1.allListeners := by
  refine ⟨by decide, ?_⟩
  refine ((once_listener_full_pass_then_removed rOnce
    (TypesArg.str "a") [] rfl (fun i => rfl) rOnce_wf 1 rfl).2
    ?_).1
  decide

/-! ## The first event of a pass is built from the original arguments -/

theorem emitStep_ext (r : LumEventRegistry) (tg : Nat) (t : Token)
    (l : Nat) (called : List Nat) (st : EmitSt) :
    ∃ d, (emitStep r tg t l called st).2.emitted = st.emitted ++ d := by
  by_cases h : r.multiMatch = true ∨ l ∉ called
  · rw [emitStep_fire_eq r tg t l called st h]
    exact ⟨[(LumEvent.create l tg t st.args st.nextId).1], rfl⟩
  · rw [emitStep_skip_eq r tg t l called st h]
    exact ⟨[], (List.append_nil _).symm⟩

theorem runListeners_ext (r : LumEventRegistry) (tg : Nat) (t : Token)
    (ls : List Nat) :
    ∀ (called : List Nat) (st : EmitSt),
      ∃ d, (runListeners r tg t ls called st).2.emitted =
        st.emitted ++ d := by
  induction ls with
  | nil => intro called st; exact ⟨[], (List.append_nil _).symm⟩
  | cons l rest ih =>
    intro called st
    rw [runListeners_cons]
    obtain ⟨d1, hd1⟩ := emitStep_ext r tg t l called st
    split
    · exact ⟨d1, hd1⟩
    · obtain ⟨d2, hd2⟩ := ih (emitStep r tg t l called st).1
        (emitStep r tg t l called st).2
      exact ⟨d1 ++ d2, by rw [hd2, hd1, List.append_assoc]⟩

theorem runTypes_ext (r : LumEventRegistry) (tg : Nat)
    (wilds : Option (List Nat)) (ets : List Token) :
    ∀ (called : List Nat) (st : EmitSt),
      ∃ d, (runTypes r tg wilds ets called st).emitted =
        st.emitted ++ d := by
  induction ets with
  | nil => intro called st; exact ⟨[], (List.append_nil _).symm⟩
  | cons t0 rest ih =>
    intro called st
    rw [runTypes_cons]
    split
    · exact ih called st
    · rename_i s hlk
      obtain ⟨d1, hd1⟩ := runListeners_ext r tg t0 (candsOf wilds s)
        called st
      split
      · exact ⟨d1, hd1⟩
      · obtain ⟨d2, hd2⟩ := ih _
          (runListeners r tg t0 (candsOf wilds s) called st).2
        exact ⟨d1 ++ d2, by rw [hd2, hd1, List.append_assoc]⟩

theorem runTargets_ext (r : LumEventRegistry)
    (wilds : Option (List Nat)) (ets : List Token) (tgs : List Nat) :
    ∀ st : EmitSt,
      ∃ d, (runTargets r wilds ets tgs st).emitted =
        st.emitted ++ d := by
  induction tgs with
  | nil => intro st; exact ⟨[], (List.append_nil _).symm⟩
  | cons tg0 rest ih =>
    intro st
    rw [runTargets_cons]
    obtain ⟨d1, hd1⟩ := runTypes_ext r tg0 wilds ets [] st
    split
    · exact ⟨d1, hd1⟩
    · obtain ⟨d2, hd2⟩ := ih (runTypes r tg0 wilds ets [] st)
      exact ⟨d1 ++ d2, by rw [hd2, hd1, List.append_assoc]⟩

theorem emitStep_fix (r : LumEventRegistry) (tg : Nat) (t : Token)
    (l : Nat) (called : List Nat) (st : EmitSt)
    (h : (emitStep r tg t l called st).2.emitted = st.emitted) :
    emitStep r tg t l called st = (called, st) := by
  by_cases hf : r.multiMatch = true ∨ l ∉ called
  · rw [emitStep_fire_eq r tg t l called st hf] at h
    have h2 : st.emitted ++
        [(LumEvent.create l tg t st.args st.nextId).1] = st.emitted := h
    have h3 := congrArg List.length h2
    rw [List.length_append] at h3
    simp at h3
  · rw [emitStep_skip_eq r tg t l called st hf]

theorem runListeners_fix (r : LumEventRegistry) (tg : Nat) (t : Token)
    (ls : List Nat) :
    ∀ (called : List Nat) (st : EmitSt),
      (runListeners r tg t ls called st).2.emitted = st.emitted →
      runListeners r tg t ls called st = (called, st) := by
  induction ls with
  | nil => intro called st _; rfl
  | cons l rest ih =>
    intro called st h
    rw [runListeners_cons] at h ⊢
    obtain ⟨d1, hd1⟩ := emitStep_ext r tg t l called st
    split at h
    · rename_i hc
      rw [emitStep_fix r tg t l called st h] at hc ⊢
      split
      · rfl
      · rename_i hc2
        exact absurd hc hc2
    · rename_i hc
      obtain ⟨d2, hd2⟩ := runListeners_ext r tg t rest
        (emitStep r tg t l called st).1 (emitStep r tg t l called st).2
      rw [hd2, hd1, List.append_assoc] at h
      have hnil : d1 ++ d2 = [] := by
        have h3 := congrArg List.length h
        rw [List.length_append] at h3
        have h4 : (d1 ++ d2).length = 0 := by omega
        exact List.length_eq_zero.1 h4
      obtain ⟨hda, hdb⟩ := List.append_eq_nil.1 hnil
      have hse : (emitStep r tg t l called st).2.emitted = st.emitted := by
        rw [hd1, hda, List.append_nil]
      have hfix := emitStep_fix r tg t l called st hse
      rw [hfix] at hc ⊢
      split
      · rename_i hc2
        exact absurd hc2 hc
      · exact ih called st (by
          rw [hfix] at hd2
          rw [hd2, hdb, List.append_nil])

theorem runTypes_fix (r : LumEventRegistry) (tg : Nat)
    (wilds : Option (List Nat)) (ets : List Token) :
    ∀ (called : List Nat) (st : EmitSt),
      (runTypes r tg wilds ets called st).emitted = st.emitted →
      runTypes r tg wilds ets called st = st := by
  induction ets with
  | nil => intro called st _; rfl
  | cons t0 rest ih =>
    intro called st h
    cases hmg : mapGet r.listenersFor t0 with
    | none =>
      have h2 : (runTypes r tg wilds rest called st).emitted =
          st.emitted := by
        rw [runTypes_cons, hmg] at h
        exact h
      rw [runTypes_cons, hmg]
      exact ih called st h2
    | some s =>
      have h' : (if (runListeners r tg t0 (candsOf wilds s) called
            st).2.stop = true
          then (runListeners r tg t0 (candsOf wilds s) called st).2
          else runTypes r tg wilds rest
            (runListeners r tg t0 (candsOf wilds s) called st).1
            (runListeners r tg t0 (candsOf wilds s) called
              st).2).emitted = st.emitted := by
        rw [runTypes_cons, hmg] at h
        exact h
      rw [runTypes_cons, hmg]
      show (if (runListeners r tg t0 (candsOf wilds s) called
            st).2.stop = true
          then (runListeners r tg t0 (candsOf wilds s) called st).2
          else runTypes r tg wilds rest
            (runListeners r tg t0 (candsOf wilds s) called st).1
            (runListeners r tg t0 (candsOf wilds s) called st).2) = st
      obtain ⟨d1, hd1⟩ := runListeners_ext r tg t0 (candsOf wilds s)
        called st
      split at h'
      · rename_i hc
        rw [if_pos hc]
        exact congrArg Prod.snd
          (runListeners_fix r tg t0 (candsOf wilds s) called st h')
      · rename_i hc
        rw [if_neg hc]
        obtain ⟨d2, hd2⟩ := runTypes_ext r tg wilds rest
          (runListeners r tg t0 (candsOf wilds s) called st).1
          (runListeners r tg t0 (candsOf wilds s) called st).2
        rw [hd2, hd1, List.append_assoc] at h'
        have hnil : d1 ++ d2 = [] := by
          have h3 := congrArg List.length h'
          rw [List.length_append] at h3
          have h4 : (d1 ++ d2).length = 0 := by omega
          exact List.length_eq_zero.1 h4
        obtain ⟨hda, hdb⟩ := List.append_eq_nil.1 hnil
        have hse : (runListeners r tg t0 (candsOf wilds s) called
            st).2.emitted = st.emitted := by
          rw [hd1, hda, List.append_nil]
        have hfixL := runListeners_fix r tg t0 (candsOf wilds s)
          called st hse
        rw [hfixL]
        refine ih called st ?_
        rw [hfixL] at hd2
        rw [hd2, hdb, List.append_nil]

theorem emitStep_first (r : LumEventRegistry) (tg : Nat) (t : Token)
    (l : Nat) (called : List Nat) (st : EmitSt)
    (hst : st.emitted = []) (e : LumEvent) (tl : List LumEvent)
    (h : (emitStep r tg t l called st).2.emitted = e :: tl) :
    e = (LumEvent.create l tg t st.args st.nextId).1 := by
  by_cases hf : r.multiMatch = true ∨ l ∉ called
  · rw [emitStep_fire_eq r tg t l called st hf] at h
    have h2 : st.emitted ++
        [(LumEvent.create l tg t st.args st.nextId).1] = e :: tl := h
    rw [hst, List.nil_append] at h2
    injection h2 with h3 h4
    exact h3.symm
  · rw [emitStep_skip_eq r tg t l called st hf] at h
    have h2 : st.emitted = e :: tl := h
    rw [hst] at h2
    exact List.noConfusion h2

theorem runListeners_first (r : LumEventRegistry) (tg : Nat)
    (t : Token) (ls : List Nat) :
    ∀ (called : List Nat) (st : EmitSt), st.emitted = [] →
      ∀ (e : LumEvent) (tl : List LumEvent),
        (runListeners r tg t ls called st).2.emitted = e :: tl →
        ∃ l, e = (LumEvent.create l tg t st.args st.nextId).1 := by
  induction ls with
  | nil =>
    intro called st hst e tl h
    have h2 : st.emitted = e :: tl := h
    rw [hst] at h2
    exact List.noConfusion h2
  | cons l rest ih =>
    intro called st hst e tl h
    rw [runListeners_cons] at h
    split at h
    · exact ⟨l, emitStep_first r tg t l called st hst e tl h⟩
    · cases hpe : (emitStep r tg t l called st).2.emitted with
      | nil =>
        have hfix := emitStep_fix r tg t l called st (by rw [hpe, hst])
        rw [hfix] at h
        exact ih called st hst e tl h
      | cons e0 tl0 =>
        have he0 : e0 = (LumEvent.create l tg t st.args st.nextId).1 :=
          emitStep_first r tg t l called st hst e0 tl0 hpe
        obtain ⟨d, hd⟩ := runListeners_ext r tg t rest
          (emitStep r tg t l called st).1
          (emitStep r tg t l called st).2
        rw [hd, hpe, List.cons_append] at h
        injection h with h3 h4
        exact ⟨l, h3 ▸ he0⟩

theorem runTypes_first (r : LumEventRegistry) (tg : Nat)
    (wilds : Option (List Nat)) (ets : List Token) :
    ∀ (called : List Nat) (st : EmitSt), st.emitted = [] →
      ∀ (e : LumEvent) (tl : List LumEvent),
        (runTypes r tg wilds ets called st).emitted = e :: tl →
        ∃ l t, e = (LumEvent.create l tg t st.args st.nextId).1 := by
  induction ets with
  | nil =>
    intro called st hst e tl h
    have h2 : st.emitted = e :: tl := h
    rw [hst] at h2
    exact List.noConfusion h2
  | cons t0 rest ih =>
    intro called st hst e tl h
    cases hmg : mapGet r.listenersFor t0 with
    | none =>
      rw [runTypes_cons, hmg] at h
      exact ih called st hst e tl h
    | some s =>
      have h' : (if (runListeners r tg t0 (candsOf wilds s) called
            st).2.stop = true
          then (runListeners r tg t0 (candsOf wilds s) called st).2
          else runTypes r tg wilds rest
            (runListeners r tg t0 (candsOf wilds s) called st).1
            (runListeners r tg t0 (candsOf wilds s) called
              st).2).emitted = e :: tl := by
        rw [runTypes_cons, hmg] at h
        exact h
      split at h'
      · obtain ⟨l, hl⟩ := runListeners_first r tg t0 (candsOf wilds s)
          called st hst e tl h'
        exact ⟨l, t0, hl⟩
      · cases hpe : (runListeners r tg t0 (candsOf wilds s) called
            st).2.emitted with
        | nil =>
          have hfix := runListeners_fix r tg t0 (candsOf wilds s)
            called st (by rw [hpe, hst])
          rw [hfix] at h'
          exact ih called st hst e tl h'
        | cons e0 tl0 =>
          obtain ⟨l, hl⟩ := runListeners_first r tg t0
            (candsOf wilds s) called st hst e0 tl0 hpe
          obtain ⟨d, hd⟩ := runTypes_ext r tg wilds rest
            (runListeners r tg t0 (candsOf wilds s) called st).1
            (runListeners r tg t0 (candsOf wilds s) called st).2
          rw [hd, hpe, List.cons_append] at h'
          injection h' with h3 h4
          exact ⟨l, t0, h3 ▸ hl⟩

theorem runTargets_first (r : LumEventRegistry)
    (wilds : Option (List Nat)) (ets : List Token) (tgs : List Nat) :
    ∀ st : EmitSt, st.emitted = [] →
      ∀ (e : LumEvent) (tl : List LumEvent),
        (runTargets r wilds ets tgs st).emitted = e :: tl →
        ∃ l tg t, e = (LumEvent.create l tg t st.args st.nextId).1 := by
  induction tgs with
  | nil =>
    intro st hst e tl h
    have h2 : st.emitted = e :: tl := h
    rw [hst] at h2
    exact List.noConfusion h2
  | cons tg0 rest ih =>
    intro st hst e tl h
    rw [runTargets_cons] at h
    split at h
    · obtain ⟨l, t, hl⟩ := runTypes_first r tg0 wilds ets [] st hst
        e tl h
      exact ⟨l, tg0, t, hl⟩
    · cases hpe : (runTypes r tg0 wilds ets [] st).emitted with
      | nil =>
        have hfix := runTypes_fix r tg0 wilds ets [] st
          (by rw [hpe, hst])
        rw [hfix] at h
        exact ih st hst e tl h
      | cons e0 tl0 =>
        obtain ⟨l, t, hl⟩ := runTypes_first r tg0 wilds ets [] st hst
          e0 tl0 hpe
        obtain ⟨d, hd⟩ := runTargets_ext r wilds ets rest
          (runTypes r tg0 wilds ets [] st)
        rw [hd, hpe, List.cons_append] at h
        injection h with h3 h4
        exact ⟨l, tg0, t, h3 ▸ hl⟩

/-- C6 amended: in an `emit()` call whose first positional argument is
an existing event, the first event constructed during the call adopts
the original's `data` and `origEvent`, records the original as
`prevEvent`, and drops it from the argument list (the remaining
arguments shift down).  Because that construction shifts the original
out of the argument array shared by the whole pass, the adoption is not
guaranteed for any later event of the same call — they are built from
the already-shifted array (see the counterexample). -/
theorem first_event_adopts_forwarded (r : LumEventRegistry)
    (types : TypesArg) (pe : PrevEvent) (rest : List Arg)
    (e : LumEvent) (tl : List LumEvent)
    (h : (r.emit types (Arg.evArg pe :: rest)).2.emitted = e :: tl) :
    e.data = pe.data ∧ e.origEventId = pe.origEventId ∧
    e.prevEventId = some pe.id ∧ e.args = rest := by
  have h2 : (runTargets r (mapGet r.listenersFor r.wildcard)
      ((r.getEventTypes types).tokens) (jsSetOf r.targets)
      { emitted := [], onceRemoved := [], args := Arg.evArg pe :: rest,
        nextId := 0, stop := false }).emitted = e :: tl := h
  obtain ⟨l, tg, t, hl⟩ := runTargets_first r
    (mapGet r.listenersFor r.wildcard) ((r.getEventTypes types).tokens)
    (jsSetOf r.targets) _ rfl e tl h2
  subst hl
  exact ⟨rfl, rfl, rfl, rfl⟩

/-- C6 witness: the adoption fact applied to the single event emitted
by `rBase` when forwarding the previous event `pe0`. -/
theorem first_event_adopts_forwarded_check :
    ((rBase.emit (TypesArg.str "x")
      [Arg.evArg pe0]).2.emitted.getD 0 dummyEvent).data = pe0.data := by
  have h := first_event_adopts_forwarded rBase (TypesArg.str "x") pe0 []
    ((rBase.emit (TypesArg.str "x")
      [Arg.evArg pe0]).2.emitted.getD 0 dummyEvent)
    ((rBase.emit (TypesArg.str "x") [Arg.evArg pe0]).2.emitted.tail)
    (by decide)
  exact h.1
